import Mathlib

/-!
Verification of the Timescales library core (`dft.cpp`, `specialfreqs.cpp`).

The C++ `double` values are modelled as exact rationals (`ℚ`) for all
control flow, comparisons and grid statistics; the complex exponential of
the discrete Fourier transform is modelled over `ℂ` with `Complex.exp`.
Exceptions are modelled as an error type returned through `Except`/`Option`.
Each function keeps the structure of its C++ source: the same check order,
the same scan loops (written as folds / structural recursion), and the same
copy-and-swap commit discipline for `dft`'s output argument.
-/

namespace kpftimes

/-- Error taxonomy of the library: `std::invalid_argument`,
`kpftimes::except::BadLightCurve`, `kpfutils::except::NotSorted` and
`kpftimes::except::NegativeFreq`, each carrying its diagnostic message. -/
inductive TsError where
  | invalidArgument (msg : String)
  | badLightCurve (msg : String)
  | notSorted (msg : String)
  | negativeFreq (msg : String)
deriving DecidableEq, Repr

instance : DecidableEq (Except TsError ℚ) := fun a b =>
  match a, b with
  | .ok x, .ok y =>
      if h : x = y then isTrue (by rw [h]) else isFalse (fun hh => h (Except.ok.inj hh))
  | .error e, .error f =>
      if h : e = f then isTrue (by rw [h]) else isFalse (fun hh => h (Except.error.inj hh))
  | .ok _, .error _ => isFalse (fun hh => Except.noConfusion hh)
  | .error _, .ok _ => isFalse (fun hh => Except.noConfusion hh)

/-- Diagnostic message of `deltaT` for fewer than 2 observations. -/
def deltaTArgMsg : String := "Parameter times in deltaT() contains fewer than 2 observations"

/-- Diagnostic message of `deltaT` for a degenerate light curve. -/
def deltaTBadMsg : String := "Parameter times in deltaT() contains only one unique value"

/-- Diagnostic message of `maxFreq` for fewer than 2 observations. -/
def maxFreqArgMsg : String := "Parameter times in maxFreq() contains fewer than 2 observations"

/-- Diagnostic message of `maxFreq` for unsorted input. -/
def maxFreqSortMsg : String := "Parameter times in maxFreq() is unsorted"

/-- Diagnostic message of `maxFreq` for a degenerate light curve. -/
def maxFreqBadMsg : String := "Parameter times in maxFreq() contains only one unique value"

/-- Diagnostic message of `dft` for a degenerate light curve. -/
def dftBadMsg : String := "Argument times to dft() contains only one unique date"

/-- Diagnostic message of `dft` for unsorted input. -/
def dftSortMsg : String := "Argument times to dft() is not sorted in ascending order"

/-- Diagnostic message of `dft` for a length mismatch; it is built from both
lengths exactly as the `boost::lexical_cast` concatenation in the source. -/
def dftLenMsg (nTimes nFluxes : Nat) : String :=
  "Arguments times and fluxes to dft() are not the same length (gave "
    ++ toString nTimes ++ " for times and " ++ toString nFluxes ++ " for fluxes)"

/-- Embeds the body of `deltaT` (`specialfreqs.cpp`): reject fewer than two
observations, then a single linear scan tracking the running minimum and
maximum starting from `times.front()`, then reject `tMax <= tMin`, else
return `tMax - tMin`. -/
def deltaT (times : List ℚ) : Except TsError ℚ :=
  if times.length < 2 then
    .error (.invalidArgument deltaTArgMsg)
  else
    let t0 := times.headI
    let mm := times.foldl
      (fun p x => (if x < p.1 then x else p.1, if x > p.2 then x else p.2)) (t0, t0)
    if mm.2 ≤ mm.1 then .error (.badLightCurve deltaTBadMsg)
    else .ok (mm.2 - mm.1)

/-- Embeds `pseudoNyquistFreq` (`specialfreqs.cpp`): delegate the input
validation to `deltaT` and return `0.5 * times.size() / deltaT(times)`. -/
def pseudoNyquistFreq (times : List ℚ) : Except TsError ℚ :=
  (deltaT times).map (fun d => 1 / 2 * (times.length : ℚ) / d)

/-- Modelled from the spec: `kpfutils::isSorted` is declared in the common
statistics helpers, which are not part of this repository snapshot; the spec
describes the helpers as pure functions over ordered sequences, and states
that a time series in which every sample shares the same timestamp satisfies
the sortedness requirement of `maxFreq` (failing only the degenerate-light-
curve check), so the predicate is non-decreasing adjacent order. -/
def isSorted (times : List ℚ) : Bool :=
  (times.zip times.tail).all (fun p => decide (p.1 ≤ p.2))

/-- One step of the minimum-interval loop of `maxFreq` (`specialfreqs.cpp`):
update the running value whenever the pair ascends strictly and its gap beats
the current minimum (or the sentinel `0` is still in place). -/
def gapStep (m : ℚ) (p : ℚ × ℚ) : ℚ :=
  if p.1 < p.2 ∧ (p.2 - p.1 < m ∨ m = 0) then p.2 - p.1 else m

/-- The minimum-interval loop of `maxFreq` (`specialfreqs.cpp`): walk the
adjacent pairs, starting from the sentinel `minDeltaT = 0.0`. -/
def minPosGap (pairs : List (ℚ × ℚ)) : ℚ :=
  pairs.foldl gapStep 0

/-- Embeds the body of `maxFreq` (`specialfreqs.cpp`): reject fewer than two
observations, then reject unsorted input via `isSorted`, then find the
smallest strictly positive adjacent interval; sentinel `0` surviving the
scan means a degenerate light curve, otherwise return `0.5 / minDeltaT`. -/
def maxFreq (times : List ℚ) : Except TsError ℚ :=
  if times.length < 2 then .error (.invalidArgument maxFreqArgMsg)
  else if ¬ isSorted times then .error (.notSorted maxFreqSortMsg)
  else
    let m := minPosGap (times.zip times.tail)
    if m = 0 then .error (.badLightCurve maxFreqBadMsg)
    else .ok (1 / 2 / m)

/-- Embeds the `diffValues` scan of `dft` (`dft.cpp`): true exactly when some
element differs from `times[0]`. -/
def diffScan (t0 : ℚ) : List ℚ → Bool
  | [] => false
  | x :: rest => decide (x ≠ t0) || diffScan t0 rest

/-- Embeds the `sortedTimes` scan of `dft` (`dft.cpp`): false exactly when
some adjacent pair satisfies `times[i-1] > times[i]`. -/
def sortScan : List ℚ → Bool
  | [] => true
  | [_] => true
  | a :: b :: rest => !decide (a > b) && sortScan (b :: rest)

/-- Embeds the precondition block of `dft` (`dft.cpp`), in source order:
`!diffValues` throws `BadLightCurve`, then `!sortedTimes` throws `NotSorted`,
then a length mismatch throws `std::invalid_argument` with both lengths in
the message. -/
def dftValidate (times fluxes : List ℚ) : Option TsError :=
  if ¬ diffScan times.headI times then some (.badLightCurve dftBadMsg)
  else if ¬ sortScan times then some (.notSorted dftSortMsg)
  else if fluxes.length ≠ times.length then
    some (.invalidArgument (dftLenMsg times.length fluxes.length))
  else none

/-- One term of the DFT sum (`dft.cpp` inner loop): for a (time, flux) pair
`p` and frequency `f`, the value `fluxes[j] * exp(-I * omega * times[j])`
with `omega = 2 * pi * f`. -/
noncomputable def dftTerm (f : ℚ) (p : ℚ × ℚ) : ℂ :=
  (p.2 : ℂ) * Complex.exp (-Complex.I * ((2 * Real.pi * (f : ℝ) : ℝ) : ℂ) * ((p.1 : ℝ) : ℂ))

/-- One entry of the DFT output (`dft.cpp` inner loop): `tempDft[i]` starts
at `0` and accumulates the terms over the samples in input order. -/
noncomputable def dftCell (times fluxes : List ℚ) (f : ℚ) : ℂ :=
  (times.zip fluxes).foldl (fun acc p => acc + dftTerm f p) 0

/-- The temporary output buffer of `dft` (`dft.cpp` outer loop): one
accumulated cell per frequency, in grid order. -/
noncomputable def dftSpectrum (times fluxes freqs : List ℚ) : List ℂ :=
  freqs.map (dftCell times fluxes)

/-- Embeds `dft` (`dft.cpp`) as a total function: validation first, then the
brute-force double loop. -/
noncomputable def dft (times fluxes freqs : List ℚ) : Except TsError (List ℂ) :=
  match dftValidate times fluxes with
  | some e => .error e
  | none => .ok (dftSpectrum times fluxes freqs)

/-- Embeds `dft` (`dft.cpp`) together with its output argument: the pair is
(thrown exception, final contents of the `dft` output vector).  On the
validation path the output vector has not been touched; on the success path
the freshly computed `tempDft` is swapped into it. -/
noncomputable def dftProc (times fluxes freqs : List ℚ) (out : List ℂ) :
    Option TsError × List ℂ :=
  match dftValidate times fluxes with
  | some e => (some e, out)
  | none =>
    let tempDft := dftSpectrum times fluxes freqs
    (none, tempDft)

/-- The spec-side statement of `dft`'s precondition checks, written from the
claim: first-failing-check-wins over (two distinct values, non-decreasing
adjacent order, equal lengths), with the same errors and messages. -/
def dftValidateSpec (times fluxes : List ℚ) : Option TsError :=
  if ¬ ∃ x ∈ times, ∃ y ∈ times, x ≠ y then some (.badLightCurve dftBadMsg)
  else if ¬ ∀ p ∈ times.zip times.tail, p.1 ≤ p.2 then some (.notSorted dftSortMsg)
  else if fluxes.length ≠ times.length then
    some (.invalidArgument (dftLenMsg times.length fluxes.length))
  else none

/-- The 100-point regular grid `[0, 1, ..., 99]` of the spec scenario. -/
def grid100 : List ℚ := (List.range 100).map (Nat.cast : Nat → ℚ)

/-- The `diffValues` flag is set exactly when some element differs from the
first one. -/
theorem diffScan_iff (t0 : ℚ) (l : List ℚ) :
    diffScan t0 l = true ↔ ∃ x ∈ l, x ≠ t0 := by
  induction l with
  | nil => simp [diffScan]
  | cons a r ih => simp [diffScan, ih]

/-- Having an element that differs from the first one is the same as having
two distinct values. -/
theorem exists_distinct_iff (l : List ℚ) :
    (∃ x ∈ l, ∃ y ∈ l, x ≠ y) ↔ ∃ x ∈ l, x ≠ l.headI := by
  constructor
  · rintro ⟨x, hx, y, hy, hxy⟩
    cases l with
    | nil => cases hx
    | cons a r =>
      by_cases hxa : x = a
      · exact ⟨y, hy, by simpa [List.headI, ← hxa] using (Ne.symm hxy)⟩
      · exact ⟨x, hx, by simpa [List.headI] using hxa⟩
  · rintro ⟨x, hx, hne⟩
    cases l with
    | nil => cases hx
    | cons a r => exact ⟨x, hx, a, List.mem_cons_self a r, by simpa [List.headI] using hne⟩

/-- The `sortedTimes` flag survives exactly when every adjacent pair is
non-decreasing. -/
theorem sortScan_iff : ∀ l : List ℚ, sortScan l = true ↔ ∀ p ∈ l.zip l.tail, p.1 ≤ p.2
  | [] => by simp [sortScan]
  | [a] => by simp [sortScan]
  | a :: b :: r => by
    have ih := sortScan_iff (b :: r)
    simp only [sortScan, Bool.and_eq_true, Bool.not_eq_true', decide_eq_false_iff_not,
      not_lt, ih, List.tail_cons, List.zip_cons_cons, List.mem_cons]
    constructor
    · rintro ⟨hab, hall⟩ p hp
      rcases hp with hp | hp
      · simpa [hp] using hab
      · exact hall p hp
    · intro hall
      exact ⟨by simpa using hall (a, b) (Or.inl rfl), fun p hp => hall p (Or.inr hp)⟩

/-- The modelled `isSorted` is the non-decreasing adjacent-pair predicate. -/
theorem isSorted_iff (l : List ℚ) :
    isSorted l = true ↔ ∀ p ∈ l.zip l.tail, p.1 ≤ p.2 := by
  simp [isSorted, List.all_eq_true]

/-- The scanning validation of `dft` agrees with the declarative
first-failing-check description. -/
theorem dftValidate_eq_spec (times fluxes : List ℚ) :
    dftValidate times fluxes = dftValidateSpec times fluxes := by
  have h1 : diffScan times.headI times = true ↔ ∃ x ∈ times, ∃ y ∈ times, x ≠ y := by
    rw [diffScan_iff, exists_distinct_iff]
  have h2 := sortScan_iff times
  unfold dftValidate dftValidateSpec
  by_cases hd : ∃ x ∈ times, ∃ y ∈ times, x ≠ y
  · rw [if_neg (not_not_intro (h1.mpr hd)), if_neg (not_not_intro hd)]
    by_cases hs : ∀ p ∈ times.zip times.tail, p.1 ≤ p.2
    · rw [if_neg (not_not_intro (h2.mpr hs)), if_neg (not_not_intro hs)]
    · have h2f : ¬ sortScan times = true := fun h => hs (h2.mp h)
      rw [if_pos h2f, if_pos hs]
  · have h1f : ¬ diffScan times.headI times = true := fun h => hd (h1.mp h)
    rw [if_pos h1f, if_pos hd]

/-- Accumulating additions along a list from an initial value is the initial
value plus the ordered sum of the mapped terms. -/
theorem foldl_add_map_sum {α : Type} (l : List α) (g : α → ℂ) (init : ℂ) :
    l.foldl (fun acc p => acc + g p) init = init + (l.map g).sum := by
  induction l generalizing init with
  | nil => simp
  | cons a r ih => simp [List.foldl_cons, ih, add_assoc]

/-- C2: `dft` evaluates its precondition checks in this exact order, the
first failing check determining the reported error: missing a second distinct
time value gives the degenerate-light-curve error, then a strict descent in
`times` gives the not-sorted error, then a length mismatch gives the
invalid-argument error, whose diagnostic message names both lengths. -/
theorem dft_validation_order (times fluxes freqs : List ℚ) :
    dftValidate times fluxes = dftValidateSpec times fluxes ∧
    (∀ e, dft times fluxes freqs = .error e ↔ dftValidate times fluxes = some e) ∧
    (∀ nTimes nFluxes : Nat, ∃ pre mid post,
      dftLenMsg nTimes nFluxes = pre ++ toString nTimes ++ mid ++ toString nFluxes ++ post) := by
  refine ⟨dftValidate_eq_spec times fluxes, ?_, ?_⟩
  · intro e
    unfold dft
    cases h : dftValidate times fluxes with
    | some e2 => simp
    | none => simp
  · intro n m
    exact ⟨"Arguments times and fluxes to dft() are not the same length (gave ",
      " for times and ", " for fluxes)", rfl⟩

/-- C3: called with a negative frequency after otherwise valid inputs, `dft`
does not fail; it returns a spectrum (the promised negative-frequency check
is absent from the implementation). -/
theorem dft_negative_freq_returns_spectrum :
    ∃ l, dft [(0 : ℚ), 1] [1, 1] [-1] = .ok l ∧ l.length = 1 := by
  have hv : dftValidate [(0 : ℚ), 1] [1, 1] = none := rfl
  refine ⟨dftSpectrum [(0 : ℚ), 1] [1, 1] [-1], ?_, ?_⟩
  · unfold dft
    rw [hv]
  · simp [dftSpectrum]

/-- C4: whenever `dft` fails, the pre-existing contents of the output
argument are unmodified — the output is only replaced on the success path,
after the temporary buffer has been fully computed. -/
theorem dftProc_error_out_unchanged (times fluxes freqs : List ℚ) (out : List ℂ)
    (e : TsError) (h : (dftProc times fluxes freqs out).1 = some e) :
    (dftProc times fluxes freqs out).2 = out := by
  unfold dftProc at h ⊢
  cases hv : dftValidate times fluxes with
  | some e2 => rfl
  | none => rw [hv] at h; simp at h

/-- Witness for C4 at a concrete failing call: two equal timestamps trigger
the degenerate-light-curve error and the output buffer keeps its contents. -/
theorem dftProc_error_out_unchanged_witness :
    (dftProc [(0 : ℚ), 0] [1, 1] [1] [(37 : ℂ)]).1 = some (.badLightCurve dftBadMsg) ∧
    (dftProc [(0 : ℚ), 0] [1, 1] [1] [(37 : ℂ)]).2 = [(37 : ℂ)] := by
  have h : (dftProc [(0 : ℚ), 0] [1, 1] [1] [(37 : ℂ)]).1 = some (.badLightCurve dftBadMsg) := rfl
  exact ⟨h, dftProc_error_out_unchanged _ _ _ _ _ h⟩

/-- The running minimum of the `deltaT` scan, started at `times.front()`. -/
def tMinOf (times : List ℚ) : ℚ :=
  times.foldl (fun c x => if x < c then x else c) times.headI

/-- The running maximum of the `deltaT` scan, started at `times.front()`. -/
def tMaxOf (times : List ℚ) : ℚ :=
  times.foldl (fun c x => if x > c then x else c) times.headI

/-- The fused min/max scan of `deltaT` splits into the two separate scans. -/
theorem minmax_foldl_split (l : List ℚ) (a b : ℚ) :
    l.foldl (fun p x => (if x < p.1 then x else p.1, if x > p.2 then x else p.2)) (a, b)
      = (l.foldl (fun c x => if x < c then x else c) a,
         l.foldl (fun c x => if x > c then x else c) b) := by
  induction l generalizing a b with
  | nil => rfl
  | cons t r ih => simp only [List.foldl_cons]; rw [ih]

/-- A nonempty list contains its `headI`. -/
theorem headI_mem_self (l : List ℚ) (h : l ≠ []) : l.headI ∈ l := by
  cases l with
  | nil => exact absurd rfl h
  | cons a r => simp

/-- The minimum scan never exceeds its starting value. -/
theorem foldl_min_le_init (l : List ℚ) (a : ℚ) :
    l.foldl (fun c x => if x < c then x else c) a ≤ a := by
  induction l generalizing a with
  | nil => exact le_refl a
  | cons t r ih =>
    rw [List.foldl_cons]
    refine le_trans (ih _) ?_
    split
    · exact le_of_lt (by assumption)
    · exact le_refl a

/-- The minimum scan is a lower bound of the scanned list. -/
theorem foldl_min_le_mem (l : List ℚ) (a x : ℚ) (hx : x ∈ l) :
    l.foldl (fun c x => if x < c then x else c) a ≤ x := by
  induction l generalizing a with
  | nil => cases hx
  | cons t r ih =>
    rw [List.foldl_cons]
    rcases List.mem_cons.mp hx with h | h
    · subst h
      refine le_trans (foldl_min_le_init r _) ?_
      split
      · exact le_refl x
      · exact le_of_not_lt (by assumption)
    · exact ih _ h

/-- The minimum scan returns its starting value or a list element. -/
theorem foldl_min_mem_or (l : List ℚ) (a : ℚ) :
    l.foldl (fun c x => if x < c then x else c) a = a ∨
      l.foldl (fun c x => if x < c then x else c) a ∈ l := by
  induction l generalizing a with
  | nil => exact Or.inl rfl
  | cons t r ih =>
    rw [List.foldl_cons]
    rcases ih (if t < a then t else a) with h | h
    · rw [h]
      split
      · exact Or.inr (List.mem_cons_self t r)
      · exact Or.inl rfl
    · exact Or.inr (List.mem_cons_of_mem t h)

/-- The maximum scan never drops below its starting value. -/
theorem foldl_max_init_le (l : List ℚ) (b : ℚ) :
    b ≤ l.foldl (fun c x => if x > c then x else c) b := by
  induction l generalizing b with
  | nil => exact le_refl b
  | cons t r ih =>
    rw [List.foldl_cons]
    refine le_trans ?_ (ih _)
    split
    · exact le_of_lt (by assumption)
    · exact le_refl b

/-- The maximum scan is an upper bound of the scanned list. -/
theorem foldl_max_mem_le (l : List ℚ) (b x : ℚ) (hx : x ∈ l) :
    x ≤ l.foldl (fun c x => if x > c then x else c) b := by
  induction l generalizing b with
  | nil => cases hx
  | cons t r ih =>
    rw [List.foldl_cons]
    rcases List.mem_cons.mp hx with h | h
    · subst h
      refine le_trans ?_ (foldl_max_init_le r _)
      split
      · exact le_refl x
      · exact le_of_not_lt (by assumption)
    · exact ih _ h

/-- The maximum scan returns its starting value or a list element. -/
theorem foldl_max_mem_or (l : List ℚ) (b : ℚ) :
    l.foldl (fun c x => if x > c then x else c) b = b ∨
      l.foldl (fun c x => if x > c then x else c) b ∈ l := by
  induction l generalizing b with
  | nil => exact Or.inl rfl
  | cons t r ih =>
    rw [List.foldl_cons]
    rcases ih (if t > b then t else b) with h | h
    · rw [h]
      split
      · exact Or.inr (List.mem_cons_self t r)
      · exact Or.inl rfl
    · exact Or.inr (List.mem_cons_of_mem t h)

/-- `tMinOf` is a member of any nonempty list. -/
theorem tMinOf_mem (l : List ℚ) (h : l ≠ []) : tMinOf l ∈ l := by
  rcases foldl_min_mem_or l l.headI with hh | hh
  · rw [tMinOf, hh]; exact headI_mem_self l h
  · exact hh

/-- `tMaxOf` is a member of any nonempty list. -/
theorem tMaxOf_mem (l : List ℚ) (h : l ≠ []) : tMaxOf l ∈ l := by
  rcases foldl_max_mem_or l l.headI with hh | hh
  · rw [tMaxOf, hh]; exact headI_mem_self l h
  · exact hh

/-- On the non-short path, `deltaT` is the max/min comparison followed by the
subtraction, phrased through the two scans. -/
theorem deltaT_eq_scan (times : List ℚ) (h2 : ¬ times.length < 2) :
    deltaT times =
      if tMaxOf times ≤ tMinOf times then .error (.badLightCurve deltaTBadMsg)
      else .ok (tMaxOf times - tMinOf times) := by
  unfold deltaT
  rw [if_neg h2]
  simp only [minmax_foldl_split, tMinOf, tMaxOf]

/-- The degeneracy test of `deltaT` holds exactly when all values of a
nonempty list coincide. -/
theorem deltaT_degenerate_char (times : List ℚ) (h : times ≠ []) :
    tMaxOf times ≤ tMinOf times ↔ ∀ x ∈ times, ∀ y ∈ times, x = y := by
  constructor
  · intro hle x hx y hy
    have h1 : tMinOf times ≤ x := foldl_min_le_mem times times.headI x hx
    have h2 : x ≤ tMaxOf times := foldl_max_mem_le times times.headI x hx
    have h3 : tMinOf times ≤ y := foldl_min_le_mem times times.headI y hy
    have h4 : y ≤ tMaxOf times := foldl_max_mem_le times times.headI y hy
    have hx' : x = tMinOf times := le_antisymm (le_trans h2 hle) h1
    have hy' : y = tMinOf times := le_antisymm (le_trans h4 hle) h3
    rw [hx', hy']
  · intro hall
    have hmin : tMinOf times ∈ times := tMinOf_mem times h
    have hmax : tMaxOf times ∈ times := tMaxOf_mem times h
    exact le_of_eq (hall _ hmax _ hmin)

/-- A list of length at least 2 is nonempty. -/
theorem ne_nil_of_two_le (times : List ℚ) (h2 : 2 ≤ times.length) : times ≠ [] := by
  intro h
  rw [h] at h2
  exact absurd h2 (by decide)

/-- `deltaT` fails with the invalid-argument error exactly on short input. -/
theorem deltaT_invalid_iff (times : List ℚ) :
    deltaT times = .error (.invalidArgument deltaTArgMsg) ↔ times.length < 2 := by
  by_cases h : times.length < 2
  · simp [deltaT, h]
  · rw [deltaT_eq_scan times h]
    simp only [h, iff_false]
    split
    · simp [deltaTBadMsg, deltaTArgMsg]
    · simp

/-- On input of workable length, `deltaT` fails with the degenerate error
exactly when all values coincide. -/
theorem deltaT_degenerate_iff (times : List ℚ) (h2 : 2 ≤ times.length) :
    deltaT times = .error (.badLightCurve deltaTBadMsg) ↔
      ∀ x ∈ times, ∀ y ∈ times, x = y := by
  have hne := ne_nil_of_two_le times h2
  rw [deltaT_eq_scan times (not_lt.mpr h2), ← deltaT_degenerate_char times hne]
  split
  · simp [*]
  · simp [*]

/-- On input of workable length with two distinct values, `deltaT` returns
the difference between the extreme values of the list. -/
theorem deltaT_ok_pin (times : List ℚ) (h2 : 2 ≤ times.length) (a b : ℚ)
    (ha : a ∈ times) (hb : b ∈ times)
    (hub : ∀ x ∈ times, x ≤ a) (hlb : ∀ x ∈ times, b ≤ x) (hab : b < a) :
    deltaT times = .ok (a - b) := by
  have hne := ne_nil_of_two_le times h2
  have hmax : tMaxOf times = a :=
    le_antisymm (hub _ (tMaxOf_mem times hne)) (foldl_max_mem_le times times.headI a ha)
  have hmin : tMinOf times = b :=
    le_antisymm (foldl_min_le_mem times times.headI b hb) (hlb _ (tMinOf_mem times hne))
  rw [deltaT_eq_scan times (not_lt.mpr h2), hmax, hmin, if_neg (not_le.mpr hab)]

/-- C5: `deltaT` yields the invalid-argument error exactly on lists shorter
than 2 (length before degeneracy), the degenerate-light-curve error exactly
when all values coincide, and otherwise the maximum minus the minimum of the
list. -/
theorem deltaT_spec (times : List ℚ) :
    (deltaT times = .error (.invalidArgument deltaTArgMsg) ↔ times.length < 2) ∧
    (2 ≤ times.length →
      (deltaT times = .error (.badLightCurve deltaTBadMsg) ↔
        ∀ x ∈ times, ∀ y ∈ times, x = y)) ∧
    (2 ≤ times.length → (∃ x ∈ times, ∃ y ∈ times, x ≠ y) →
      ∃ a ∈ times, ∃ b ∈ times, (∀ x ∈ times, x ≤ a) ∧ (∀ x ∈ times, b ≤ x) ∧
        deltaT times = .ok (a - b)) := by
  refine ⟨deltaT_invalid_iff times, deltaT_degenerate_iff times, ?_⟩
  intro h2 hdist
  have hne := ne_nil_of_two_le times h2
  refine ⟨tMaxOf times, tMaxOf_mem times hne, tMinOf times, tMinOf_mem times hne,
    fun x hx => foldl_max_mem_le times times.headI x hx,
    fun x hx => foldl_min_le_mem times times.headI x hx, ?_⟩
  have hdeg : ¬ tMaxOf times ≤ tMinOf times := by
    rw [deltaT_degenerate_char times hne]
    rcases hdist with ⟨x, hx, y, hy, hxy⟩
    exact fun hall => hxy (hall x hx y hy)
  rw [deltaT_eq_scan times (not_lt.mpr h2), if_neg hdeg]

/-- Witness for C5 at `[0, 2]`: the success branch returns max minus min. -/
theorem deltaT_spec_witness :
    (2 ≤ ([(0 : ℚ), 2]).length) ∧ (∃ x ∈ [(0 : ℚ), 2], ∃ y ∈ [(0 : ℚ), 2], x ≠ y) ∧
    ∃ a ∈ [(0 : ℚ), 2], ∃ b ∈ [(0 : ℚ), 2], (∀ x ∈ [(0 : ℚ), 2], x ≤ a) ∧
      (∀ x ∈ [(0 : ℚ), 2], b ≤ x) ∧ deltaT [(0 : ℚ), 2] = .ok (a - b) :=
  ⟨by decide, by decide, (deltaT_spec [(0 : ℚ), 2]).2.2 (by decide) (by decide)⟩

/-- C9: `pseudoNyquistFreq` fails exactly with the error `deltaT` fails with
(invalid-argument below length 2, degenerate when all values coincide), and
on success returns `0.5 * N / deltaT(times)` with no further ordering
requirement. -/
theorem pseudoNyquistFreq_spec (times : List ℚ) :
    (∀ e, pseudoNyquistFreq times = .error e ↔ deltaT times = .error e) ∧
    (∀ d, deltaT times = .ok d →
      pseudoNyquistFreq times = .ok (1 / 2 * (times.length : ℚ) / d)) ∧
    (pseudoNyquistFreq times = .error (.invalidArgument deltaTArgMsg) ↔
      times.length < 2) ∧
    (2 ≤ times.length →
      (pseudoNyquistFreq times = .error (.badLightCurve deltaTBadMsg) ↔
        ∀ x ∈ times, ∀ y ∈ times, x = y)) := by
  have herr : ∀ e, pseudoNyquistFreq times = .error e ↔ deltaT times = .error e := by
    intro e
    unfold pseudoNyquistFreq
    cases h : deltaT times with
    | error e2 => simp [Except.map]
    | ok d => simp [Except.map]
  refine ⟨herr, ?_, ?_, ?_⟩
  · intro d hd
    unfold pseudoNyquistFreq
    rw [hd]
    rfl
  · rw [herr, deltaT_invalid_iff]
  · intro h2
    rw [herr, deltaT_degenerate_iff times h2]

/-- Witness for C9 at `[0, 2]`: success value `0.5 * 2 / (2 - 0)`. -/
theorem pseudoNyquistFreq_spec_witness :
    deltaT [(0 : ℚ), 2] = .ok (2 - 0) ∧
    pseudoNyquistFreq [(0 : ℚ), 2] = .ok (1 / 2 * ((([(0 : ℚ), 2]).length : ℚ)) / (2 - 0)) := by
  have hd : deltaT [(0 : ℚ), 2] = .ok (2 - 0) :=
    deltaT_ok_pin [(0 : ℚ), 2] (by decide) 2 0 (by decide) (by decide)
      (by decide) (by decide) (by decide)
  exact ⟨hd, (pseudoNyquistFreq_spec [(0 : ℚ), 2]).2.1 (2 - 0) hd⟩

/-- Update equation of the interval step. -/
theorem gapStep_pos_eq (m : ℚ) (p : ℚ × ℚ)
    (hc : p.1 < p.2 ∧ (p.2 - p.1 < m ∨ m = 0)) : gapStep m p = p.2 - p.1 := by
  unfold gapStep
  exact if_pos hc

/-- Keep equation of the interval step. -/
theorem gapStep_neg_eq (m : ℚ) (p : ℚ × ℚ)
    (hc : ¬ (p.1 < p.2 ∧ (p.2 - p.1 < m ∨ m = 0))) : gapStep m p = m := by
  unfold gapStep
  exact if_neg hc

/-- Once the interval scan holds a positive value it stays positive and never
increases. -/
theorem gap_foldl_pos (l : List (ℚ × ℚ)) : ∀ m : ℚ, 0 < m →
    0 < l.foldl gapStep m ∧ l.foldl gapStep m ≤ m := by
  induction l with
  | nil => exact fun m hm => ⟨hm, le_refl m⟩
  | cons q r ih =>
    intro m hm
    rw [List.foldl_cons]
    by_cases hc : q.1 < q.2 ∧ (q.2 - q.1 < m ∨ m = 0)
    · rw [gapStep_pos_eq m q hc]
      have hgap : 0 < q.2 - q.1 := sub_pos.mpr hc.1
      have hlt : q.2 - q.1 < m := by
        rcases hc.2 with h | h
        · exact h
        · exact absurd h (ne_of_gt hm)
      obtain ⟨h1, h2⟩ := ih _ hgap
      exact ⟨h1, le_trans h2 (le_of_lt hlt)⟩
    · rw [gapStep_neg_eq m q hc]
      exact ih m hm

/-- Without any strictly ascending pair the interval scan keeps its starting
value (in particular the sentinel `0` survives). -/
theorem gap_foldl_id (l : List (ℚ × ℚ)) : ∀ m : ℚ, (∀ p ∈ l, ¬ p.1 < p.2) →
    l.foldl gapStep m = m := by
  induction l with
  | nil => exact fun m _ => rfl
  | cons q r ih =>
    intro m hnone
    rw [List.foldl_cons]
    have hq : ¬ (q.1 < q.2 ∧ (q.2 - q.1 < m ∨ m = 0)) :=
      fun hc => hnone q (List.mem_cons_self q r) hc.1
    rw [gapStep_neg_eq m q hq]
    exact ih m (fun p hp => hnone p (List.mem_cons_of_mem q hp))

/-- With at least one strictly ascending pair the interval scan leaves the
sentinel and ends strictly positive. -/
theorem gap_foldl_pos_of_has (l : List (ℚ × ℚ)) (hex : ∃ p ∈ l, p.1 < p.2) :
    0 < l.foldl gapStep 0 := by
  induction l with
  | nil => rcases hex with ⟨p, hp, _⟩; cases hp
  | cons q r ih =>
    rw [List.foldl_cons]
    by_cases hq : q.1 < q.2
    · have hc : q.1 < q.2 ∧ (q.2 - q.1 < 0 ∨ (0 : ℚ) = 0) := ⟨hq, Or.inr rfl⟩
      rw [gapStep_pos_eq 0 q hc]
      exact (gap_foldl_pos r _ (sub_pos.mpr hq)).1
    · have hc : ¬ (q.1 < q.2 ∧ (q.2 - q.1 < 0 ∨ (0 : ℚ) = 0)) := fun hc => hq hc.1
      rw [gapStep_neg_eq 0 q hc]
      apply ih
      rcases hex with ⟨p, hp, hpos⟩
      rcases List.mem_cons.mp hp with h | h
      · exact absurd (h ▸ hpos) hq
      · exact ⟨p, h, hpos⟩

/-- The interval scan returns its starting value or the gap of some strictly
ascending pair of the list. -/
theorem gap_foldl_attained (l : List (ℚ × ℚ)) : ∀ m : ℚ,
    l.foldl gapStep m = m ∨
      ∃ p ∈ l, p.1 < p.2 ∧ l.foldl gapStep m = p.2 - p.1 := by
  induction l with
  | nil => exact fun m => Or.inl rfl
  | cons q r ih =>
    intro m
    rw [List.foldl_cons]
    by_cases hc : q.1 < q.2 ∧ (q.2 - q.1 < m ∨ m = 0)
    · rw [gapStep_pos_eq m q hc]
      rcases ih (q.2 - q.1) with h | ⟨p, hp, hpos, heq⟩
      · exact Or.inr ⟨q, List.mem_cons_self q r, hc.1, h⟩
      · exact Or.inr ⟨p, List.mem_cons_of_mem q hp, hpos, heq⟩
    · rw [gapStep_neg_eq m q hc]
      rcases ih m with h | ⟨p, hp, hpos, heq⟩
      · exact Or.inl h
      · exact Or.inr ⟨p, List.mem_cons_of_mem q hp, hpos, heq⟩

/-- Started from a non-negative value, the interval scan never exceeds the
gap of any strictly ascending pair of the list. -/
theorem gap_foldl_min (l : List (ℚ × ℚ)) : ∀ m : ℚ, 0 ≤ m →
    ∀ p ∈ l, p.1 < p.2 → l.foldl gapStep m ≤ p.2 - p.1 := by
  induction l with
  | nil => intro m _ p hp; cases hp
  | cons q r ih =>
    intro m hm p hp hpos
    rw [List.foldl_cons]
    rcases List.mem_cons.mp hp with h | h
    · subst h
      have hstep : gapStep m p ≤ p.2 - p.1 ∧ 0 < gapStep m p := by
        by_cases hc : p.1 < p.2 ∧ (p.2 - p.1 < m ∨ m = 0)
        · rw [gapStep_pos_eq m p hc]
          exact ⟨le_refl _, sub_pos.mpr hpos⟩
        · have hb : ¬ (p.2 - p.1 < m ∨ m = 0) := fun hb => hc ⟨hpos, hb⟩
          push_neg at hb
          rw [gapStep_neg_eq m p hc]
          exact ⟨hb.1, lt_of_le_of_ne hm (Ne.symm hb.2)⟩
      exact le_trans (gap_foldl_pos r _ hstep.2).2 hstep.1
    · have hm' : 0 ≤ gapStep m q := by
        by_cases hc : q.1 < q.2 ∧ (q.2 - q.1 < m ∨ m = 0)
        · rw [gapStep_pos_eq m q hc]
          exact le_of_lt (sub_pos.mpr hc.1)
        · rw [gapStep_neg_eq m q hc]
          exact hm
      exact ih _ hm' p h hpos

/-- On the path past the length and sortedness checks, `maxFreq` branches on
the scanned minimum positive interval. -/
theorem maxFreq_eq_gap (times : List ℚ) (h2 : ¬ times.length < 2)
    (hs : isSorted times = true) :
    maxFreq times =
      if minPosGap (times.zip times.tail) = 0 then .error (.badLightCurve maxFreqBadMsg)
      else .ok (1 / 2 / minPosGap (times.zip times.tail)) := by
  unfold maxFreq
  rw [if_neg h2, if_neg (not_not_intro hs)]

/-- C6: for sorted input of workable length, `maxFreq` returns `0.5` divided
by the minimum strictly positive adjacent gap when such a gap exists, and
fails with the degenerate-light-curve error when no strictly positive
adjacent gap exists. -/
theorem maxFreq_spec (times : List ℚ) (hlen : 2 ≤ times.length)
    (hsort : ∀ p ∈ times.zip times.tail, p.1 ≤ p.2) :
    ((∃ p ∈ times.zip times.tail, p.1 < p.2) →
      ∃ g, 0 < g ∧ (∃ p ∈ times.zip times.tail, p.1 < p.2 ∧ p.2 - p.1 = g) ∧
        (∀ p ∈ times.zip times.tail, p.1 < p.2 → g ≤ p.2 - p.1) ∧
        maxFreq times = .ok (1 / 2 / g)) ∧
    ((∀ p ∈ times.zip times.tail, ¬ p.1 < p.2) →
      maxFreq times = .error (.badLightCurve maxFreqBadMsg)) := by
  have hs : isSorted times = true := (isSorted_iff times).mpr hsort
  have hmg : minPosGap (times.zip times.tail) = (times.zip times.tail).foldl gapStep 0 := rfl
  constructor
  · intro hex
    have hpos : 0 < minPosGap (times.zip times.tail) := by
      rw [hmg]; exact gap_foldl_pos_of_has _ hex
    refine ⟨minPosGap (times.zip times.tail), hpos, ?_, ?_, ?_⟩
    · rcases gap_foldl_attained (times.zip times.tail) 0 with h | ⟨p, hp, hpp, heq⟩
      · rw [hmg, h] at hpos
        exact absurd hpos (lt_irrefl 0)
      · exact ⟨p, hp, hpp, by rw [hmg, heq]⟩
    · intro p hp hpp
      rw [hmg]
      exact gap_foldl_min (times.zip times.tail) 0 (le_refl 0) p hp hpp
    · rw [maxFreq_eq_gap times (not_lt.mpr hlen) hs, if_neg (ne_of_gt hpos)]
  · intro hnone
    have hz : minPosGap (times.zip times.tail) = 0 := by
      rw [hmg]; exact gap_foldl_id _ 0 hnone
    rw [maxFreq_eq_gap times (not_lt.mpr hlen) hs, if_pos hz]

/-- Witness for C6 at `[0, 1, 3]`: a positive adjacent gap exists, so the
minimum positive gap is returned under `1/2`. -/
theorem maxFreq_spec_witness :
    (2 ≤ ([(0 : ℚ), 1, 3]).length) ∧
    ∃ g, 0 < g ∧
      (∃ p ∈ ([(0 : ℚ), 1, 3].zip ([(0 : ℚ), 1, 3]).tail), p.1 < p.2 ∧ p.2 - p.1 = g) ∧
      (∀ p ∈ ([(0 : ℚ), 1, 3].zip ([(0 : ℚ), 1, 3]).tail), p.1 < p.2 → g ≤ p.2 - p.1) ∧
      maxFreq [(0 : ℚ), 1, 3] = .ok (1 / 2 / g) :=
  ⟨by decide, (maxFreq_spec [(0 : ℚ), 1, 3] (by decide) (by decide)).1 (by decide)⟩

/-- Counterexample to C7 as stated: `[0, 0, 1]` has two adjacent equal
entries, yet `maxFreq` succeeds instead of failing with a not-sorted
error. -/
theorem maxFreq_adjacent_equal_ok :
    maxFreq [(0 : ℚ), 0, 1] = .ok (1 / 2) ∧
    ∀ e, maxFreq [(0 : ℚ), 0, 1] ≠ .error e := by
  have hs : isSorted [(0 : ℚ), 0, 1] = true := by decide
  have hmg : minPosGap ([(0 : ℚ), 0, 1].zip ([(0 : ℚ), 0, 1]).tail) = 1 := by
    norm_num [minPosGap, gapStep]
  have h : maxFreq [(0 : ℚ), 0, 1] = .ok (1 / 2) := by
    rw [maxFreq_eq_gap [(0 : ℚ), 0, 1] (by decide) hs, hmg]
    norm_num
  exact ⟨h, fun e => by rw [h]; exact fun hh => Except.noConfusion hh⟩

/-- C7 amended: only a strict descent between adjacent entries makes
`maxFreq` fail with the not-sorted error; adjacent equal entries do not. -/
theorem maxFreq_notSorted_of_inversion (times : List ℚ) (hlen : 2 ≤ times.length)
    (hinv : ∃ p ∈ times.zip times.tail, p.2 < p.1) :
    maxFreq times = .error (.notSorted maxFreqSortMsg) := by
  have hns : ¬ isSorted times = true := by
    rw [isSorted_iff]
    rcases hinv with ⟨p, hp, hlt⟩
    exact fun hall => absurd (hall p hp) (not_le.mpr hlt)
  unfold maxFreq
  rw [if_neg (not_lt.mpr hlen), if_pos hns]

/-- Witness for the amended C7 at `[1, 0]`: a descending adjacent pair makes
`maxFreq` fail with the not-sorted error. -/
theorem maxFreq_notSorted_of_inversion_witness :
    (2 ≤ ([(1 : ℚ), 0]).length) ∧
    (∃ p ∈ ([(1 : ℚ), 0].zip ([(1 : ℚ), 0]).tail), p.2 < p.1) ∧
    maxFreq [(1 : ℚ), 0] = .error (.notSorted maxFreqSortMsg) :=
  ⟨by decide, by decide, maxFreq_notSorted_of_inversion [(1 : ℚ), 0] (by decide) (by decide)⟩

/-- Under the preconditions the validation block of `dft` passes. -/
theorem dftValidate_none (times fluxes : List ℚ)
    (hdist : ∃ x ∈ times, ∃ y ∈ times, x ≠ y)
    (hsort : ∀ p ∈ times.zip times.tail, p.1 ≤ p.2)
    (hlen : fluxes.length = times.length) :
    dftValidate times fluxes = none := by
  have h1 : diffScan times.headI times = true := by
    rw [diffScan_iff]
    exact (exists_distinct_iff times).mp hdist
  have h2 : sortScan times = true := (sortScan_iff times).mpr hsort
  unfold dftValidate
  rw [if_neg (not_not_intro h1), if_neg (not_not_intro h2), if_neg (not_not_intro hlen)]

/-- Each spectrum cell is the ordered sum of the per-sample terms. -/
theorem dftSpectrum_entry (times fluxes freqs : List ℚ) (i : Nat) (f : ℚ)
    (hf : freqs[i]? = some f) :
    (dftSpectrum times fluxes freqs)[i]? =
      some (((times.zip fluxes).map (dftTerm f)).sum) := by
  have hcell : dftCell times fluxes f = ((times.zip fluxes).map (dftTerm f)).sum := by
    unfold dftCell
    rw [foldl_add_map_sum, zero_add]
  unfold dftSpectrum
  rw [List.getElem?_map, hf, Option.map_some', hcell]

/-- C1: under its preconditions `dft` returns exactly one spectrum entry per
frequency, the i-th entry being the sum, in input order over the sample
pairs, of `fluxes[j] * exp(-I * 2 * pi * freqs[i] * times[j])`. -/
theorem dft_correct (times fluxes freqs : List ℚ)
    (hdist : ∃ x ∈ times, ∃ y ∈ times, x ≠ y)
    (hsort : ∀ p ∈ times.zip times.tail, p.1 ≤ p.2)
    (hlen : fluxes.length = times.length) :
    ∃ l, dft times fluxes freqs = .ok l ∧ l.length = freqs.length ∧
      ∀ (i : Nat) (f : ℚ), freqs[i]? = some f →
        l[i]? = some (((times.zip fluxes).map (dftTerm f)).sum) := by
  have hv := dftValidate_none times fluxes hdist hsort hlen
  refine ⟨dftSpectrum times fluxes freqs, ?_, ?_, ?_⟩
  · unfold dft
    rw [hv]
  · simp [dftSpectrum]
  · exact dftSpectrum_entry times fluxes freqs

/-- Witness for C1 at `times = [0, 1]`, `fluxes = [1, 1]`, `freqs = [1]`. -/
theorem dft_correct_witness :
    (∃ x ∈ [(0 : ℚ), 1], ∃ y ∈ [(0 : ℚ), 1], x ≠ y) ∧
    (∀ p ∈ ([(0 : ℚ), 1].zip ([(0 : ℚ), 1]).tail), p.1 ≤ p.2) ∧
    ∃ l, dft [(0 : ℚ), 1] [(1 : ℚ), 1] [(1 : ℚ)] = .ok l ∧ l.length = ([(1 : ℚ)]).length ∧
      ∀ (i : Nat) (f : ℚ), ([(1 : ℚ)])[i]? = some f →
        l[i]? = some ((([(0 : ℚ), 1].zip [(1 : ℚ), 1]).map (dftTerm f)).sum) :=
  ⟨by decide, by decide,
    dft_correct [(0 : ℚ), 1] [(1 : ℚ), 1] [(1 : ℚ)] (by decide) (by decide) (by decide)⟩

/-- C10: the sortedness check of `dft` is non-strict: non-decreasing input
(adjacent entries may be equal) with two distinct values and matching
lengths succeeds, every sample — including those sharing a repeated
timestamp — contributing its own term to each spectrum entry; and a
not-sorted failure can only come from a strict descent between adjacent
entries. -/
theorem dft_sort_check_nonstrict (times fluxes freqs : List ℚ) :
    ((∀ p ∈ times.zip times.tail, p.1 ≤ p.2) → (∃ x ∈ times, ∃ y ∈ times, x ≠ y) →
      fluxes.length = times.length →
      dft times fluxes freqs = .ok (dftSpectrum times fluxes freqs) ∧
      (times.zip fluxes).length = times.length ∧
      ∀ (i : Nat) (f : ℚ), freqs[i]? = some f →
        (dftSpectrum times fluxes freqs)[i]? =
          some (((times.zip fluxes).map (dftTerm f)).sum)) ∧
    (∀ msg, dft times fluxes freqs = .error (.notSorted msg) →
      ∃ p ∈ times.zip times.tail, p.2 < p.1) := by
  constructor
  · intro hsort hdist hlen
    have hv := dftValidate_none times fluxes hdist hsort hlen
    refine ⟨?_, ?_, dftSpectrum_entry times fluxes freqs⟩
    · unfold dft
      rw [hv]
    · rw [List.length_zip, hlen, min_self]
  · intro msg hmsg
    unfold dft at hmsg
    cases hv : dftValidate times fluxes with
    | none =>
      rw [hv] at hmsg
      exact absurd hmsg (by simp)
    | some e =>
      rw [hv] at hmsg
      have he : e = .notSorted msg := Except.error.inj hmsg
      subst he
      unfold dftValidate at hv
      by_cases hd : diffScan times.headI times = true
      · rw [if_neg (not_not_intro hd)] at hv
        by_cases hs : sortScan times = true
        · rw [if_neg (not_not_intro hs)] at hv
          split at hv
          · simp [dftLenMsg] at hv
          · simp at hv
        · have hns := hs
          rw [sortScan_iff] at hns
          push_neg at hns
          exact hns
      · rw [if_pos hd] at hv
        simp [dftBadMsg, dftSortMsg] at hv

/-- Witness for C10 at `times = [0, 0, 1]` (a repeated timestamp), `fluxes =
[1, 1, 1]`, `freqs = [1]`: the call succeeds with one term per sample. -/
theorem dft_sort_check_nonstrict_witness :
    (∀ p ∈ ([(0 : ℚ), 0, 1].zip ([(0 : ℚ), 0, 1]).tail), p.1 ≤ p.2) ∧
    dft [(0 : ℚ), 0, 1] [(1 : ℚ), 1, 1] [(1 : ℚ)] =
      .ok (dftSpectrum [(0 : ℚ), 0, 1] [(1 : ℚ), 1, 1] [(1 : ℚ)]) ∧
    ([(0 : ℚ), 0, 1].zip [(1 : ℚ), 1, 1]).length = ([(0 : ℚ), 0, 1]).length := by
  have h := (dft_sort_check_nonstrict [(0 : ℚ), 0, 1] [(1 : ℚ), 1, 1] [(1 : ℚ)]).1
    (by decide) (by decide) (by decide)
  exact ⟨by decide, h.1, h.2.1⟩

/-- Adjacent pairs of a list are the entries at consecutive positions. -/
theorem mem_zip_tail_iff (l : List ℚ) (p : ℚ × ℚ) :
    p ∈ l.zip l.tail ↔ ∃ i : Nat, l[i]? = some p.1 ∧ l[i + 1]? = some p.2 := by
  rw [List.mem_iff_getElem?]
  constructor
  · rintro ⟨i, hi⟩
    rw [List.getElem?_zip_eq_some] at hi
    refine ⟨i, hi.1, ?_⟩
    rw [← List.getElem?_tail l i]
    exact hi.2
  · rintro ⟨i, h1, h2⟩
    refine ⟨i, List.getElem?_zip_eq_some.mpr ⟨h1, ?_⟩⟩
    rw [List.getElem?_tail l i]
    exact h2

/-- The regular grid has 100 points. -/
theorem grid100_length : grid100.length = 100 := by
  rw [grid100, List.length_map, List.length_range]

/-- Entry `i` of the regular grid is `i`. -/
theorem grid100_getElem (i : Nat) (h : i < 100) : grid100[i]? = some (i : ℚ) := by
  rw [grid100, List.getElem?_map, List.getElem?_range h]
  rfl

/-- Conversely, a present entry of the regular grid pins its position and
value. -/
theorem grid100_getElem_char (j : Nat) (x : ℚ) (h : grid100[j]? = some x) :
    j < 100 ∧ x = (j : ℚ) := by
  have hj : j < 100 := by
    by_contra hge
    rw [List.getElem?_eq_none (by rw [grid100_length]; omega)] at h
    exact Option.noConfusion h
  refine ⟨hj, ?_⟩
  rw [grid100_getElem j hj] at h
  exact (Option.some.inj h).symm

/-- The adjacent pairs of the regular grid are exactly `(i, i + 1)`. -/
theorem grid100_pairs (p : ℚ × ℚ) :
    p ∈ grid100.zip grid100.tail ↔
      ∃ i : Nat, i + 1 < 100 ∧ p.1 = (i : ℚ) ∧ p.2 = (i : ℚ) + 1 := by
  rw [mem_zip_tail_iff]
  constructor
  · rintro ⟨i, h1, h2⟩
    obtain ⟨hi1, he1⟩ := grid100_getElem_char i p.1 h1
    obtain ⟨hi2, he2⟩ := grid100_getElem_char (i + 1) p.2 h2
    refine ⟨i, hi2, he1, ?_⟩
    rw [he2]
    push_cast
    ring
  · rintro ⟨i, hi, hp1, hp2⟩
    refine ⟨i, ?_, ?_⟩
    · rw [hp1]
      exact grid100_getElem i (by omega)
    · rw [hp2, grid100_getElem (i + 1) hi]
      congr 1
      push_cast
      ring

/-- The regular grid is sorted. -/
theorem grid100_sorted : ∀ p ∈ grid100.zip grid100.tail, p.1 ≤ p.2 := by
  intro p hp
  obtain ⟨i, _, h1, h2⟩ := (grid100_pairs p).mp hp
  rw [h1, h2]
  linarith

/-- `deltaT` on the regular grid returns the span `99`. -/
theorem deltaT_grid100 : deltaT grid100 = .ok 99 := by
  have hmem : ∀ x ∈ grid100, ∃ k : Nat, k < 100 ∧ x = (k : ℚ) := by
    intro x hx
    simp only [grid100, List.mem_map, List.mem_range] at hx
    obtain ⟨k, hk, he⟩ := hx
    exact ⟨k, hk, he.symm⟩
  have h99 : (99 : ℚ) ∈ grid100 := by
    simp only [grid100, List.mem_map, List.mem_range]
    exact ⟨99, by omega, by push_cast; ring⟩
  have h0 : (0 : ℚ) ∈ grid100 := by
    simp only [grid100, List.mem_map, List.mem_range]
    exact ⟨0, by omega, by push_cast; ring⟩
  have hub : ∀ x ∈ grid100, x ≤ 99 := by
    intro x hx
    obtain ⟨k, hk, he⟩ := hmem x hx
    rw [he]
    have : (k : ℚ) ≤ (99 : Nat) := Nat.cast_le.mpr (by omega)
    push_cast at this
    exact this
  have hlb : ∀ x ∈ grid100, 0 ≤ x := by
    intro x hx
    obtain ⟨k, hk, he⟩ := hmem x hx
    rw [he]
    exact Nat.cast_nonneg k
  have h := deltaT_ok_pin grid100 (by rw [grid100_length]; omega) 99 0 h99 h0 hub hlb
    (by norm_num)
  rw [h]
  norm_num

/-- `maxFreq` on the regular grid returns `0.5`. -/
theorem maxFreq_grid100 : maxFreq grid100 = .ok (1 / 2) := by
  have hs : isSorted grid100 = true := (isSorted_iff grid100).mpr grid100_sorted
  have hgaps : ∀ p ∈ grid100.zip grid100.tail, p.2 - p.1 = 1 := by
    intro p hp
    obtain ⟨i, _, h1, h2⟩ := (grid100_pairs p).mp hp
    rw [h1, h2]
    ring
  have hex : ∃ p ∈ grid100.zip grid100.tail, p.1 < p.2 := by
    refine ⟨((0 : ℚ), (1 : ℚ)), ?_, by norm_num⟩
    exact (grid100_pairs ((0 : ℚ), (1 : ℚ))).mpr ⟨0, by omega, by norm_num, by norm_num⟩
  have hpos : 0 < minPosGap (grid100.zip grid100.tail) := gap_foldl_pos_of_has _ hex
  have hval : minPosGap (grid100.zip grid100.tail) = 1 := by
    rcases gap_foldl_attained (grid100.zip grid100.tail) 0 with h | ⟨p, hp, _, heq⟩
    · exfalso
      rw [minPosGap, h] at hpos
      exact lt_irrefl _ hpos
    · rw [minPosGap, heq, hgaps p hp]
  rw [maxFreq_eq_gap grid100 (by rw [grid100_length]; omega) hs, hval]
  norm_num

/-- `pseudoNyquistFreq` on the regular grid returns `50/99`. -/
theorem pseudoNyquistFreq_grid100 : pseudoNyquistFreq grid100 = .ok (50 / 99) := by
  unfold pseudoNyquistFreq
  rw [deltaT_grid100]
  show Except.ok (1 / 2 * (grid100.length : ℚ) / 99) = Except.ok (50 / 99)
  rw [grid100_length]
  norm_num

/-- Counterexample to C8 as stated: on the regular 100-point grid the
pseudo-Nyquist frequency is not `50.0` (it is `0.5 * 100 / 99 = 50/99`). -/
theorem pseudoNyquistFreq_grid100_ne_50 : pseudoNyquistFreq grid100 ≠ .ok 50 := by
  rw [pseudoNyquistFreq_grid100]
  intro h
  have := Except.ok.inj h
  norm_num at this

/-- C8 amended: on the grid `[0, 1, ..., 99]`, `deltaT` returns `99`,
`maxFreq` returns `0.5`, and `pseudoNyquistFreq` returns `50/99`
(approximately `0.505`, not `50.0`). -/
theorem grid100_values :
    deltaT grid100 = .ok 99 ∧ maxFreq grid100 = .ok (1 / 2) ∧
    pseudoNyquistFreq grid100 = .ok (50 / 99) :=
  ⟨deltaT_grid100, maxFreq_grid100, pseudoNyquistFreq_grid100⟩

end kpftimes
